import Mathlib

/-!
Verification of the `human_eval_infilling` evaluation core against its
specification.  The Python source (`evaluate.py`, `data.py`) is shallowly
embedded: task ids, completion texts and diagnostic strings are modelled as
natural numbers, exact rational arithmetic stands in for the float
computations, and the external sandbox (`execution.py`, absent from the
sources) is a parameter constrained by its documented call contract.
-/

/-- Embedding of `estimator` (evaluate.py lines 24-30):
`if n - c < k: return 1.0; return 1.0 - np.prod(1.0 - k / np.arange(n - c + 1, n + 1))`.
The comparison `n - c < k` is over Python integers, hence over `ℤ` here;
`np.arange(n - c + 1, n + 1)` has exactly `c` entries `n - c + 1 + j` for
`j < c` whenever the else-branch is reached. -/
def estimator (n c k : ℕ) : ℚ :=
  if (n : ℤ) - (c : ℤ) < (k : ℤ) then 1
  else 1 - ((List.range c).map
    (fun (j : ℕ) => 1 - (k : ℚ) / ((n : ℚ) - (c : ℚ) + 1 + (j : ℚ)))).prod

/-- Embedding of `estimate_pass_at_k` (evaluate.py lines 15-38) in the branch
where `num_samples` is a list: one `estimator` value per `zip` pair. -/
def estimate_pass_at_k (totals corrects : List ℕ) (k : ℕ) : List ℚ :=
  (totals.zip corrects).map fun p => estimator p.1 p.2 k

/-- Embedding of `np.ndarray.mean` on the array of per-problem estimates. -/
def mean (xs : List ℚ) : ℚ := xs.sum / (xs.length : ℚ)

/-- Embedding of the dict comprehension (evaluate.py lines 91-93):
`{f"pass@{k}": estimate_pass_at_k(total, correct, k).mean() for k in ks if (total >= k).all()}`,
as an association list keyed by `k`. -/
def pass_at_k_report (totals corrects : List ℕ) (ks : List ℕ) : List (ℕ × ℚ) :=
  (ks.filter fun k => totals.all fun t => decide (k ≤ t)).map
    fun k => (k, mean (estimate_pass_at_k totals corrects k))

/-- Products of a function mapped over `List.range` agree with `Finset.range`
products. -/
lemma prod_map_list_range (g : ℕ → ℚ) :
    ∀ c : ℕ, ((List.range c).map g).prod = ∏ j ∈ Finset.range c, g j := by
  intro c
  induction c with
  | zero => simp
  | succ c ih =>
      rw [List.range_succ, List.map_append, List.prod_append,
        Finset.prod_range_succ, ih]
      simp

/-- Claim C2: for all naturals `n, c, k` with `c ≤ n`, the per-problem
estimator returns exactly `1` when `n - c < k`, and otherwise returns
`1 - ∏_{i = n - c + 1}^{n} (1 - k / i)` in exact arithmetic. -/
theorem estimator_closed_form (n c k : ℕ) (hc : c ≤ n) :
    (n - c < k → estimator n c k = 1) ∧
    (k ≤ n - c →
      estimator n c k = 1 - ∏ i ∈ Finset.Icc (n - c + 1) n, (1 - (k : ℚ) / (i : ℚ))) := by
  constructor
  · intro h
    rw [estimator, if_pos (by omega)]
  · intro h
    rw [estimator, if_neg (by omega)]
    have hicc : Finset.Icc (n - c + 1) n = Finset.Ico (n - c + 1) (n + 1) :=
      (Nat.Ico_succ_right (n - c + 1) n).symm
    rw [hicc, Finset.prod_Ico_eq_prod_range, prod_map_list_range]
    have hlen : n + 1 - (n - c + 1) = c := by omega
    rw [hlen]
    refine congrArg (fun q => 1 - q) (Finset.prod_congr rfl ?_)
    intro j hj
    have : ((n - c + 1 + j : ℕ) : ℚ) = (n : ℚ) - (c : ℚ) + 1 + (j : ℚ) := by
      push_cast [hc]
      ring
    rw [this]

/-- Witness for C2 at `n = 2, c = 1, k = 1`: the non-degenerate branch applies
and yields the interval product over `Icc 2 2`. -/
theorem estimator_closed_form_witness :
    estimator 2 1 1 = 1 - ∏ i ∈ Finset.Icc (2 - 1 + 1 : ℕ) 2, (1 - (1 : ℚ) / (i : ℚ)) :=
  (estimator_closed_form 2 1 1 (by decide)).2 (by decide)

/-- Claim C9: whenever `c ≤ n` and `n - c < k` the estimator returns `1`,
in particular for `n < k` with `c = 0` (no passing samples at all). -/
theorem estimator_vacuous_one (n c k : ℕ) (hc : c ≤ n) (h : n - c < k) :
    estimator n c k = 1 ∧ (n < k → estimator n 0 k = 1) := by
  constructor
  · rw [estimator, if_pos (by omega)]
  · intro hn
    rw [estimator, if_pos (by omega)]

/-- Witness for C9 at `n = 2, c = 0, k = 3`: fewer samples than `k` and zero
passes still yields estimate `1`. -/
theorem estimator_vacuous_one_witness :
    estimator 2 0 3 = 1 ∧ (2 < 3 → estimator 2 0 3 = 1) :=
  estimator_vacuous_one 2 0 3 (by decide) (by decide)

/-- Claim C1: every reported `pass@k` value is the mean of the per-problem
estimates over the problems whose sample total is at least `k` (the guard
`(total >= k).all()` makes all of them qualify whenever the entry exists),
and a `k` for which no problem has total at least `k` is absent from the
report. -/
theorem pass_at_k_report_spec (totals corrects : List ℕ) (ks : List ℕ) (k : ℕ)
    (hne : totals ≠ []) :
    (∀ v : ℚ, (k, v) ∈ pass_at_k_report totals corrects ks →
      v = mean (((totals.zip corrects).filter fun p => decide (k ≤ p.1)).map
        fun p => estimator p.1 p.2 k)) ∧
    ((∀ t ∈ totals, t < k) →
      ∀ v : ℚ, (k, v) ∉ pass_at_k_report totals corrects ks) := by
  constructor
  · intro v hv
    rw [pass_at_k_report] at hv
    obtain ⟨k', hk', hkv⟩ := List.mem_map.mp hv
    obtain ⟨hks, hall⟩ := List.mem_filter.mp hk'
    have hk2 : k' = k := congrArg Prod.fst hkv
    subst hk2
    have hv2 : v = mean (estimate_pass_at_k totals corrects k') :=
      (congrArg Prod.snd hkv).symm
    have hall2 : ∀ t ∈ totals, k' ≤ t := by
      intro t ht
      simpa using List.all_eq_true.mp hall t ht
    have hfilter :
        (totals.zip corrects).filter (fun p => decide (k' ≤ p.1)) =
          totals.zip corrects := by
      apply List.filter_eq_self.mpr
      intro p hp
      simpa using hall2 p.1 (List.of_mem_zip hp).1
    rw [hfilter]
    simpa [estimate_pass_at_k] using hv2
  · intro hlt v hv
    rw [pass_at_k_report] at hv
    obtain ⟨k', hk', hkv⟩ := List.mem_map.mp hv
    obtain ⟨hks, hall⟩ := List.mem_filter.mp hk'
    have hk2 : k' = k := congrArg Prod.fst hkv
    subst hk2
    obtain ⟨t0, ht0⟩ := List.exists_mem_of_ne_nil totals hne
    have h1 : k' ≤ t0 := by simpa using List.all_eq_true.mp hall t0 ht0
    exact absurd h1 (not_le.mpr (hlt t0 ht0))

/-- Witness for C1: with totals `[2, 1]` no problem reaches ten samples, so
`pass@10` is absent from the report even though `10` was requested. -/
theorem pass_at_k_report_spec_witness :
    (10, (0 : ℚ)) ∉ pass_at_k_report [2, 1] [1, 1] [1, 10] :=
  (pass_at_k_report_spec [2, 1] [1, 1] [1, 10] 10 (by decide)).2 (by decide) 0

/-- A sample from the input stream (evaluate.py lines 64-66): a task id and a
completion text, both modelled as naturals. -/
structure Sample where
  task_id : ℕ
  completion : ℕ
deriving DecidableEq, Repr

/-- The record returned by one sandbox invocation (spec section 6:
`{task_id, completion_id, passed, result}`); `result` is the diagnostic
text, modelled as a natural. -/
structure ExecResult where
  task_id : ℕ
  completion_id : ℕ
  passed : Bool
  result : ℕ
deriving DecidableEq, Repr

/-- One entry of the report's `eval` mapping (evaluate.py lines 104-111). -/
structure EvalEntry where
  task_id : ℕ
  solution : ℕ
  result : ℕ
  passed : Bool
deriving DecidableEq, Repr

/-- The report assembled by `evaluate` (evaluate.py lines 95-99), without the
wall-clock `date` field. -/
structure Report where
  pass_at_k : List (ℕ × ℚ)
  eval : List (ℕ × List EvalEntry)
deriving DecidableEq, Repr

/-- The ways an `evaluate` run can abort: a `KeyError` from the problem
lookup `problems[task_id]` (line 67), the failed completeness assertion
(line 73), or an `IndexError` from `results[task_id].pop(0)` (line 103). -/
inductive EvalError where
  | keyError (task_id : ℕ)
  | incompleteAttempt
  | indexError
deriving DecidableEq, Repr

/-- Modelled from the spec: `check_correctness` lives in
`human_eval_infilling/execution.py`, which is not among the sources.  Per
the sandbox contract (spec section 6) it accepts the problem, the
completion, a timeout and the completion id, and returns
`{task_id, completion_id, passed, result}` for exactly that invocation.
The pass verdict and diagnostic are the external sandbox's behaviour,
abstracted as the parameter `run`. -/
def checkCorrectness (run : ℕ → ℕ → Bool × ℕ) (task comp cid : ℕ) : ExecResult :=
  { task_id := task, completion_id := cid,
    passed := (run task comp).1, result := (run task comp).2 }

/-- The dispatch loop (evaluate.py lines 64-71) threading the per-task
`Counter`: each sample is paired with the current counter value of its
task id, and that value is then incremented. -/
def dispatchAux (ctr : ℕ → ℕ) : List Sample → List (Sample × ℕ)
  | [] => []
  | s :: rest =>
      (s, ctr s.task_id) ::
        dispatchAux (fun t => if t = s.task_id then ctr t + 1 else ctr t) rest

/-- Dispatch starting from the empty `Counter` (all counts zero). -/
def dispatch (samples : List Sample) : List (Sample × ℕ) :=
  dispatchAux (fun _ => 0) samples

/-- One step of collecting dict keys in insertion order (`Counter` and
`defaultdict` keep first-insertion order). -/
def insertNew (acc : List ℕ) (t : ℕ) : List ℕ :=
  if t ∈ acc then acc else acc ++ [t]

/-- The distinct task ids of a stream, in first-occurrence order: the key
set of `completion_id` at line 73 and of `results` at lines 76-82. -/
def distinctKeys (ts : List ℕ) : List ℕ :=
  ts.foldl insertNew []

/-- Embedding of `result.sort()` (evaluate.py line 83) on the per-task list
of `(completion_id, result)` pairs: a stable sort by completion id (the
ids within one task are distinct, so any sort by the first component
agrees with Python's tuple sort). -/
def sortByCid (rs : List ExecResult) : List ExecResult :=
  rs.insertionSort fun a b => a.completion_id ≤ b.completion_id

/-- Dict assignment `output_results["eval"][task_id] = []` (line 102): an
existing key is overwritten in place, a new key is appended. -/
def setKey (m : List (ℕ × List EvalEntry)) (t : ℕ) (v : List EvalEntry) :
    List (ℕ × List EvalEntry) :=
  if m.any fun p => decide (p.1 = t) then
    m.map fun p => if p.1 = t then (t, v) else p
  else m ++ [(t, v)]

/-- Dict-entry append `output_results["eval"][task_id].append(...)`
(lines 104-111). -/
def pushEntry (m : List (ℕ × List EvalEntry)) (t : ℕ) (e : EvalEntry) :
    List (ℕ × List EvalEntry) :=
  m.map fun p => if p.1 = t then (p.1, p.2 ++ [e]) else p

/-- The report-assembly loop (evaluate.py lines 100-111): for each sample of
the second pass over the stream, reset the task's eval list, pop the front
of the task's sorted result list, and append the single entry pairing the
sample's completion with that result.  `pop(0)` on an exhausted list is an
`IndexError`, hence the `Option`. -/
def assembleEvalAux (m : List (ℕ × List EvalEntry)) (rem : ℕ → List ExecResult) :
    List Sample → Option (List (ℕ × List EvalEntry))
  | [] => some m
  | s :: rest =>
      match rem s.task_id with
      | [] => none
      | r :: rs =>
          assembleEvalAux
            (pushEntry (setKey m s.task_id [])
              s.task_id ⟨s.task_id, s.completion, r.result, r.passed⟩)
            (fun u => if u = s.task_id then rs else rem u) rest

/-- Report-assembly from the sorted per-task result lists. -/
def assembleEval (samples : List Sample) (sorted : ℕ → List ExecResult) :
    Option (List (ℕ × List EvalEntry)) :=
  assembleEvalAux [] sorted samples

/-- The body of `evaluate` after the completeness assertion (evaluate.py
lines 75-111): collect results (grouped per task id in first-arrival
order), sort each group by completion id, derive totals and corrects,
compute the pass@k report, and assemble the eval mapping. -/
def evaluateBody (run : ℕ → ℕ → Bool × ℕ) (samples : List Sample)
    (ks : List ℕ) : Except EvalError Report :=
  let arrived := (dispatch samples).map fun p =>
    checkCorrectness run p.1.task_id p.1.completion p.2
  let tasks := distinctKeys (arrived.map ExecResult.task_id)
  let sorted := fun t => sortByCid (arrived.filter fun r => decide (r.task_id = t))
  let totals := tasks.map fun t => (sorted t).length
  let corrects := tasks.map fun t => ((sorted t).filter ExecResult.passed).length
  match assembleEval samples sorted with
  | some ev => .ok ⟨pass_at_k_report totals corrects ks, ev⟩
  | none => .error .indexError

/-- Embedding of `evaluate` (evaluate.py lines 41-120): the dispatch loop
raises `KeyError` at the first sample whose task id is not a problem key
(line 67); then the completeness assertion compares the number of distinct
sample task ids with the number of problems (line 73); only then are
statistics computed and the report assembled. -/
def evaluateRun (problemIds : List ℕ) (run : ℕ → ℕ → Bool × ℕ)
    (samples : List Sample) (ks : List ℕ) : Except EvalError Report :=
  match samples.find? fun s => !decide (s.task_id ∈ problemIds) with
  | some s => .error (.keyError s.task_id)
  | none =>
      if (distinctKeys (samples.map Sample.task_id)).length = problemIds.length then
        evaluateBody run samples ks
      else .error .incompleteAttempt

/-- The sandbox behaviour of the two-problem scenario: completions `10`
(problem A's passing sample) and `30` (problem B's passing sample) pass,
completion `20` (problem A's failing sample) fails. -/
def runAB : ℕ → ℕ → Bool × ℕ := fun _ c => (decide (c = 10 ∨ c = 30), 0)

/-- Claim C7: with problems `A = 0` and `B = 1`, two samples for `A` (one
passing, one failing) and one passing sample for `B`, the per-problem
estimates at `k = 1` are `1/2` and `1`, and the reported `pass@1` of the
full run is `3/4`. -/
theorem evaluateRun_scenario_pass_at_1 :
    estimate_pass_at_k [2, 1] [1, 1] 1 = [1/2, 1] ∧
    (evaluateRun [0, 1] runAB [⟨0, 10⟩, ⟨0, 20⟩, ⟨1, 30⟩] [1]).toOption.map
        Report.pass_at_k = some [(1, 3/4)] := by
  constructor
  · norm_num [estimate_pass_at_k, estimator, List.range_succ]
  · norm_num [evaluateRun, evaluateBody, runAB, dispatch, dispatchAux, distinctKeys,
      insertNew, checkCorrectness, sortByCid, List.insertionSort, List.orderedInsert,
      assembleEval, assembleEvalAux, setKey, pushEntry, pass_at_k_report,
      estimate_pass_at_k, estimator, mean, List.range_succ, List.find?, List.filter,
      List.foldl, Except.toOption]

/-- The ids handed out by the dispatch loop to the samples of task `t`, in
input order, are the consecutive integers starting at the initial counter
value of `t`. -/
lemma dispatchAux_ids (t : ℕ) (samples : List Sample) :
    ∀ ctr : ℕ → ℕ,
      ((dispatchAux ctr samples).filter fun p => decide (p.1.task_id = t)).map Prod.snd
        = List.range' (ctr t) (samples.countP fun s => decide (s.task_id = t)) := by
  induction samples with
  | nil => intro ctr; simp [dispatchAux]
  | cons s rest ih =>
      intro ctr
      by_cases h : s.task_id = t
      · have hc : (fun u => if u = s.task_id then ctr u + 1 else ctr u) t = ctr t + 1 := by
          simp [h.symm]
        simp [dispatchAux, List.countP_cons, h, ih, hc, List.range'_succ]
      · simp [dispatchAux, List.countP_cons, h, ih]
        exact Or.inr fun ht => h ht.symm

/-- Claim C4: for every sample stream and every task id `t` with `m` samples
in it, the completion ids passed to the sandbox invocations for `t` are
exactly `0, 1, ..., m - 1`, assigned in input order with no duplicates and
no gaps.  The assignment happens synchronously in the sequential dispatch
loop before any worker runs, so it cannot depend on worker interleaving. -/
theorem dispatch_completion_ids (samples : List Sample) (t : ℕ) :
    ((dispatch samples).filter fun p => decide (p.1.task_id = t)).map Prod.snd
      = List.range (samples.countP fun s => decide (s.task_id = t)) := by
  rw [dispatch, dispatchAux_ids, List.range_eq_range']

/-- Claim C3 failing input: one problem (task `0`) with two samples
(completions `10` then `20`).  Because line 102 re-assigns
`output_results["eval"][task_id] = []` on every sample, the final eval list
for task `0` holds a single entry — the last sample's — instead of one
entry per sample. -/
theorem evaluateRun_eval_keeps_only_last_sample :
    (evaluateRun [0] (fun _ c => (decide (c = 10), 0)) [⟨0, 10⟩, ⟨0, 20⟩] [1]).toOption.map
        Report.eval = some [(0, [⟨0, 20, 0, false⟩])] := by
  norm_num [evaluateRun, evaluateBody, dispatch, dispatchAux, distinctKeys, insertNew,
    checkCorrectness, sortByCid, List.insertionSort, List.orderedInsert, assembleEval,
    assembleEvalAux, setKey, pushEntry, pass_at_k_report, estimate_pass_at_k, estimator,
    mean, List.range_succ, List.find?, List.filter, List.foldl, Except.toOption]

/-- Membership of the insertion-order key fold: an element is in the fold
iff it is in the accumulator or in the remaining stream. -/
lemma foldl_insertNew_mem (x : ℕ) :
    ∀ (ts acc : List ℕ), x ∈ ts.foldl insertNew acc ↔ x ∈ acc ∨ x ∈ ts := by
  intro ts
  induction ts with
  | nil => simp
  | cons t ts ih =>
      intro acc
      rw [List.foldl_cons, ih]
      by_cases h : t ∈ acc
      · simp only [insertNew, if_pos h, List.mem_cons]
        constructor
        · rintro (hx | hx) <;> tauto
        · rintro (hx | rfl | hx) <;> tauto
      · simp only [insertNew, if_neg h, List.mem_append, List.mem_cons, List.mem_singleton]
        tauto

/-- The insertion-order key fold preserves freedom from duplicates. -/
lemma foldl_insertNew_nodup :
    ∀ (ts acc : List ℕ), acc.Nodup → (ts.foldl insertNew acc).Nodup := by
  intro ts
  induction ts with
  | nil => simp
  | cons t ts ih =>
      intro acc hacc
      rw [List.foldl_cons]
      apply ih
      by_cases h : t ∈ acc
      · simpa [insertNew, h]
      · simp only [insertNew, if_neg h]
        rw [List.nodup_append]
        refine ⟨hacc, by simp, ?_⟩
        intro x hx
        simp only [List.mem_singleton]
        intro hxt
        exact h (hxt ▸ hx)

/-- The dict key list has the same members as the stream it came from. -/
lemma distinctKeys_mem (ts : List ℕ) (x : ℕ) : x ∈ distinctKeys ts ↔ x ∈ ts := by
  rw [distinctKeys, foldl_insertNew_mem]
  simp

/-- The dict key list holds no duplicates. -/
lemma distinctKeys_nodup (ts : List ℕ) : (distinctKeys ts).Nodup :=
  foldl_insertNew_nodup ts [] (by simp)

/-- Claim C5: when the sample stream's task ids form a strict subset of the
problem set's task ids (every sample refers to a known problem, yet some
problem gets no sample), `evaluate` aborts with the failed completeness
assertion before computing any statistics and before producing a report. -/
theorem evaluateRun_incomplete (problemIds : List ℕ) (run : ℕ → ℕ → Bool × ℕ)
    (samples : List Sample) (ks : List ℕ)
    (hnodup : problemIds.Nodup)
    (hsub : ∀ s ∈ samples, s.task_id ∈ problemIds)
    (hmiss : ∃ t ∈ problemIds, ∀ s ∈ samples, s.task_id ≠ t) :
    evaluateRun problemIds run samples ks = .error .incompleteAttempt := by
  have hfind : (samples.find? fun s => !decide (s.task_id ∈ problemIds)) = none := by
    apply List.find?_eq_none.mpr
    intro s hs
    simp [hsub s hs]
  obtain ⟨t0, ht0p, ht0s⟩ := hmiss
  have hlt : (distinctKeys (samples.map Sample.task_id)).length < problemIds.length := by
    have hd : (distinctKeys (samples.map Sample.task_id)).Nodup := distinctKeys_nodup _
    have hsubf : (distinctKeys (samples.map Sample.task_id)).toFinset ⊆ problemIds.toFinset := by
      intro x hx
      rw [List.mem_toFinset] at hx ⊢
      rw [distinctKeys_mem] at hx
      obtain ⟨s, hs, rfl⟩ := List.mem_map.mp hx
      exact hsub s hs
    have hne : t0 ∉ (distinctKeys (samples.map Sample.task_id)).toFinset := by
      rw [List.mem_toFinset, distinctKeys_mem]
      intro hx
      obtain ⟨s, hs, he⟩ := List.mem_map.mp hx
      exact ht0s s hs he
    have hss : (distinctKeys (samples.map Sample.task_id)).toFinset ⊂ problemIds.toFinset :=
      (Finset.ssubset_iff_of_subset hsubf).mpr ⟨t0, List.mem_toFinset.mpr ht0p, hne⟩
    have hcard := Finset.card_lt_card hss
    rwa [List.toFinset_card_of_nodup hd, List.toFinset_card_of_nodup hnodup] at hcard
  simp [evaluateRun, hfind, Nat.ne_of_lt hlt]

/-- Witness for C5: two problems, one attempted sample — the run aborts with
the incomplete-attempt error. -/
theorem evaluateRun_incomplete_witness :
    evaluateRun [0, 1] (fun _ _ => (true, 0)) [⟨0, 5⟩] [1] = .error .incompleteAttempt :=
  evaluateRun_incomplete [0, 1] (fun _ _ => (true, 0)) [⟨0, 5⟩] [1]
    (by decide) (by decide) ⟨1, by decide, by decide⟩

/-- Claim C10: a sample stream containing a task id that is not a problem key
makes `evaluate` fail at the dispatch-loop problem lookup (a `KeyError`
naming a stream task id absent from the problem set), before any result is
aggregated and before any statistic is computed; the completeness assertion
never runs (it only ever compares the count of distinct sample task ids with
the count of problems). -/
theorem evaluateRun_unknown_task (problemIds : List ℕ) (run : ℕ → ℕ → Bool × ℕ)
    (samples : List Sample) (ks : List ℕ)
    (h : ∃ s ∈ samples, s.task_id ∉ problemIds) :
    ∃ t, t ∉ problemIds ∧ (∃ s ∈ samples, s.task_id = t) ∧
      evaluateRun problemIds run samples ks = .error (.keyError t) := by
  obtain ⟨s0, hs0, hnot⟩ := h
  have hsome : (samples.find? fun s => !decide (s.task_id ∈ problemIds)).isSome := by
    rw [List.find?_isSome]
    exact ⟨s0, hs0, by simp [hnot]⟩
  obtain ⟨s1, hfind⟩ := Option.isSome_iff_exists.mp hsome
  refine ⟨s1.task_id, ?_, ⟨s1, List.mem_of_find?_eq_some hfind, rfl⟩, ?_⟩
  · have := List.find?_some hfind
    simpa using this
  · simp [evaluateRun, hfind]

/-- Witness for C10: one problem `0`, one sample for unknown task `1` — the
run fails with a `KeyError`. -/
theorem evaluateRun_unknown_task_witness :
    ∃ t, t ∉ ([0] : List ℕ) ∧ (∃ s ∈ [Sample.mk 1 7], s.task_id = t) ∧
      evaluateRun [0] (fun _ _ => (true, 0)) [Sample.mk 1 7] [1] = .error (.keyError t) :=
  evaluateRun_unknown_task [0] (fun _ _ => (true, 0)) [Sample.mk 1 7] [1]
    ⟨Sample.mk 1 7, by decide, by decide⟩

/-- Splitting file text at newline characters, the separators dropped: the
reader's per-line iteration (data.py lines 61, 66).  A trailing newline
produces a final empty segment, which the blank-line filter removes, so
this matches Python's iteration joined with the `json.loads` tolerance for
the kept terminator. -/
def splitLines : List Char → List (List Char)
  | [] => [[]]
  | c :: cs =>
      if c = '\n' then [] :: splitLines cs
      else
        match splitLines cs with
        | [] => [[c]]
        | l :: ls => (c :: l) :: ls

/-- The writer loop of `write_jsonl` (data.py lines 83-88): each record is
serialized and terminated with a newline. -/
def encodeLines {α : Type} (encode : α → List Char) : List α → List Char
  | [] => []
  | x :: rest => encode x ++ '\n' :: encodeLines encode rest

/-- Embedding of `write_jsonl` (data.py lines 71-88) as a function from the
prior file content to the new file content.  `encode` stands for
`json.dumps` and `compress` for the gzip encoder, both external libraries;
the encoding is chosen by the `.gz` filename suffix, and the append flag
selects mode `ab` (keep `prior`) versus `wb` (truncate). -/
def write_jsonl {α : Type} (encode : α → List Char) (compress : List Char → List Char)
    (filename : List Char) (data : List α) (append : Bool) (prior : List Char) :
    List Char :=
  let payload := encodeLines encode data
  let out := if ".gz".data.isSuffixOf filename then compress payload else payload
  (if append then prior else []) ++ out

/-- Embedding of `stream_jsonl` (data.py lines 54-68): decompress when the
filename ends in `.gz`, split into lines, skip whitespace-only lines, and
parse each remaining line (`decode` stands for `json.loads`). -/
def stream_jsonl {α : Type} (decode : List Char → Option α)
    (decompress : List Char → List Char) (filename : List Char)
    (content : List Char) : List (Option α) :=
  let text := if ".gz".data.isSuffixOf filename then decompress content else content
  ((splitLines text).filter fun l => l.any fun c => !c.isWhitespace).map decode

/-- Splitting off one newline-terminated, newline-free segment. -/
lemma splitLines_append_nl (rest : List Char) :
    ∀ s : List Char, '\n' ∉ s → splitLines (s ++ '\n' :: rest) = s :: splitLines rest := by
  intro s
  induction s with
  | nil => intro _; simp [splitLines]
  | cons c s ih =>
      intro h
      have hc : ¬c = '\n' := by
        intro hc
        exact h (hc ▸ List.mem_cons_self c s)
      have hs : '\n' ∉ s := fun hm => h (List.mem_cons_of_mem c hm)
      simp only [List.cons_append, splitLines, if_neg hc]
      rw [List.append_eq, ih hs]

/-- Splitting the writer's output recovers each serialized record plus one
final empty segment from the trailing newline. -/
lemma splitLines_encodeLines {α : Type} (encode : α → List Char)
    (hnl : ∀ x, '\n' ∉ encode x) :
    ∀ data : List α, splitLines (encodeLines encode data) = data.map encode ++ [[]] := by
  intro data
  induction data with
  | nil => simp [encodeLines, splitLines]
  | cons x rest ih =>
      rw [encodeLines, splitLines_append_nl _ _ (hnl x), ih]
      simp

/-- Claim C6: writing a record sequence with `write_jsonl` in truncate mode
and reading the same file back with `stream_jsonl` yields the identical
sequence in the same order, for plain as well as `.gz` filenames.  The
hypotheses are the contracts of the external libraries: `json.loads` is a
left inverse of `json.dumps`, a serialized record contains no newline and
is not whitespace-only, and gunzip is a left inverse of gzip. -/
theorem write_stream_roundtrip {α : Type} (encode : α → List Char)
    (decode : List Char → Option α) (compress decompress : List Char → List Char)
    (filename : List Char) (data : List α)
    (hinv : ∀ x, decode (encode x) = some x)
    (hnl : ∀ x, '\n' ∉ encode x)
    (hnb : ∀ x, (encode x).any (fun c => !c.isWhitespace) = true)
    (hgz : ∀ s, decompress (compress s) = s) :
    stream_jsonl decode decompress filename
      (write_jsonl encode compress filename data false []) = data.map some := by
  have hplain :
      ((splitLines (encodeLines encode data)).filter
        fun l => l.any fun c => !c.isWhitespace).map decode = data.map some := by
    rw [splitLines_encodeLines encode hnl data, List.filter_append]
    have h1 : (data.map encode).filter (fun l => l.any fun c => !c.isWhitespace)
        = data.map encode := by
      apply List.filter_eq_self.mpr
      intro l hl
      obtain ⟨x, _, rfl⟩ := List.mem_map.mp hl
      exact hnb x
    have h2 : ([([] : List Char)].filter fun l => l.any fun c => !c.isWhitespace) = [] := by
      simp
    rw [h1, h2, List.append_nil, List.map_map]
    exact List.map_congr_left fun x _ => hinv x
  by_cases hgzf : ".gz".data.isSuffixOf filename
  · simp only [stream_jsonl, write_jsonl, hgzf, if_true, Bool.false_eq_true, if_false,
      List.nil_append, hgz]
    exact hplain
  · simp only [stream_jsonl, write_jsonl, hgzf, Bool.false_eq_true, if_false,
      List.nil_append]
    exact hplain

/-- A concrete serializer for the round-trip witness. -/
def encB : Bool → List Char := fun b => if b then ['t'] else ['f']

/-- A concrete parser inverting `encB`. -/
def decB : List Char → Option Bool := fun l =>
  if l = ['t'] then some true else if l = ['f'] then some false else none

/-- Witness for C6: a two-record sequence written to `out.jsonl` and read
back is recovered unchanged and in order. -/
theorem write_stream_roundtrip_witness :
    stream_jsonl decB id "out.jsonl".data
      (write_jsonl encB id "out.jsonl".data [true, false] false []) =
      [some true, some false] :=
  write_stream_roundtrip encB decB id id "out.jsonl".data [true, false]
    (fun x => by cases x <;> rfl) (fun x => by cases x <;> decide)
    (fun x => by cases x <;> decide) (fun s => rfl)

/-- Embedding of the output-file naming (evaluate.py line 114):
`out_file = sample_file[:-6] + "_eval_results.jsonl"` — the last six
characters are removed unconditionally, whatever the suffix was. -/
def out_file (sample_file : List Char) : List Char :=
  sample_file.take (sample_file.length - 6) ++ "_eval_results.jsonl".data

/-- Counterexample to claim C8: for the compressed input `s.jsonl.gz` the
code does not replace the compressed-extension suffix `.jsonl.gz`, which
would give `s_eval_results.jsonl`; it removes only six characters and
produces the mangled name `s.js_eval_results.jsonl`. -/
theorem out_file_gz_counterexample :
    out_file "s.jsonl.gz".data ≠ "s_eval_results.jsonl".data ∧
    out_file "s.jsonl.gz".data = "s.js_eval_results.jsonl".data := by decide

/-- Claim C8 as amended: the report file name is the input path with its
last six characters removed and `_eval_results.jsonl` appended, so a plain
`.jsonl` suffix is replaced correctly while a `.jsonl.gz` input keeps the
stray `.js` of its stem. -/
theorem out_file_drops_six (stem : List Char) :
    out_file (stem ++ ".jsonl".data) = stem ++ "_eval_results.jsonl".data ∧
    out_file (stem ++ ".jsonl.gz".data) = stem ++ ".js_eval_results.jsonl".data := by
  constructor
  · rw [out_file]
    have h : (stem ++ ".jsonl".data).length - 6 = stem.length := by
      rw [List.length_append, show (".jsonl".data).length = 6 from rfl]
      omega
    rw [h, List.take_left]
  · rw [out_file]
    have h : (stem ++ ".jsonl.gz".data).length - 6 = stem.length + 3 := by
      rw [List.length_append, show (".jsonl.gz".data).length = 9 from rfl]
      omega
    rw [h, List.take_append, List.append_assoc]
    rfl
